import Mathlib

/-!
Verification of the GDS-preprocessing core of
`gdsfactory/simulation/gmsh/parse_gds.py`.

The module's coordinates are Python floats; we embed them as exact rationals.
Python's `round` rounds ties to even; no property below depends on tie
behaviour, so it is modelled by Mathlib's nearest-integer `round`.
Geometric objects from shapely are embedded denotationally: a polygon is its
coordinate rings, membership of a point is the standard even-odd (ray
casting) rule, and the boolean operations (`unary_union`, `difference`) act
on point sets.
-/

namespace ParseGds

/-- A vertex as seen by `shapely.ops.transform`: coordinates `x`, `y` and an
optional third coordinate `z` (present only for 3-dimensional geometry). -/
structure Point where
  x : ℚ
  y : ℚ
  z : Option ℚ
deriving DecidableEq

/-- Python's `round(q, ndigits)`: round to `ndigits` decimal digits. -/
def roundTo (q : ℚ) (ndigits : ℕ) : ℚ :=
  (round (q * 10 ^ ndigits) : ℚ) / 10 ^ ndigits

/-- The inner `_round_coords(x, y, z=None)` of `round_coordinates`, mirrored
from the source:

`x = round(x, ndigits); y = round(y, ndigits); if z is not None: z = round(x, ndigits)`

Note the source assigns `z` from the *rebound* variable `x` (the already
rounded x-coordinate), not from `z`; the model reproduces this literally as
`roundTo (roundTo p.x ndigits) ndigits`. -/
def round_coords (ndigits : ℕ) (p : Point) : Point :=
  { x := roundTo p.x ndigits
    y := roundTo p.y ndigits
    z := match p.z with
         | none => none
         | some _ => some (roundTo (roundTo p.x ndigits) ndigits) }

/-- A shapely `Polygon`: an exterior ring (`shell`) and interior rings
(`holes`).  Rings are coordinate lists; shapely closes them implicitly, so
edges are taken cyclically below. -/
structure Polygon where
  shell : List Point
  holes : List (List Point)
deriving DecidableEq

/-- `round_coordinates(geom, ndigits)`: `shapely.ops.transform` applies
`_round_coords` to every vertex of every ring of the geometry. -/
def round_coordinates (geom : Polygon) (ndigits : ℕ) : Polygon :=
  { shell := geom.shell.map (round_coords ndigits)
    holes := geom.holes.map (fun ring => ring.map (round_coords ndigits)) }

/-- A vertex whose third coordinate differs from its first: `x = 7/5`,
`z = 18/5`.  Rounding at 0 digits should give `z = 4`; the code gives `z = 1`. -/
def zBugPoint : Point := ⟨7/5, 0, some (18/5)⟩

/-- One edge test of the even-odd (ray casting) point-in-polygon rule used by
the geometry kernel: a horizontal ray from `t` crosses the edge `a`-`b` iff
the edge straddles the ray's height and the crossing lies strictly to the
right of `t`.  The usual division by `b.y - a.y` is cross-multiplied away:
for a straddling edge, `t.x < a.x + (t.y - a.y) * (b.x - a.x) / (b.y - a.y)`
holds iff `0 < ((t.y - a.y) * (b.x - a.x) - (t.x - a.x) * (b.y - a.y)) * (b.y - a.y)`. -/
def edgeCross (t a b : Point) : Bool :=
  (decide (t.y < a.y) != decide (t.y < b.y)) &&
    decide (0 < ((t.y - a.y) * (b.x - a.x) - (t.x - a.x) * (b.y - a.y)) * (b.y - a.y))

/-- Number of edges of the (cyclically closed) ring crossed by the horizontal
ray from `t`. -/
def ringCrossings (t : Point) (ring : List Point) : ℕ :=
  (ring.zip (ring.rotate 1)).countP (fun e => edgeCross t e.1 e.2)

/-- Even-odd membership of a point in a polygon: the total crossing parity
over the shell and all holes is odd. -/
def Polygon.containsB (g : Polygon) (t : Point) : Bool :=
  decide ((ringCrossings t g.shell + (g.holes.map (ringCrossings t)).sum) % 2 = 1)

/-- A ring is degenerate (collapsed) when all its vertices lie on one line:
there are a base point `a` and a direction `d` carrying every vertex. -/
def collinearRing (ring : List Point) : Prop :=
  ∃ a d : ℚ × ℚ, ∀ v ∈ ring, ∃ s : ℚ, v.x = a.1 + s * d.1 ∧ v.y = a.2 + s * d.2

/-- A Region is the point-set denotation of a shapely geometry. -/
abbrev Region := Set Point

/-- The opaque per-layer selector: `fuse_polygons` receives the dictionary
produced by `LayerLevel.to_dict()["layer"]` and only passes it through to
`component.extract`, so it is modelled as an opaque token. -/
abbrev LayerSelector := ℕ

/-- The sub-layout returned by `component.extract(layer)`: it only exposes
`get_polygons()`, the raw coordinate rings on that layer. -/
structure SubLayout where
  get_polygons : List (List Point)

/-- The source layout: the core only calls `extract(layer)` on it. -/
structure Component where
  extract : LayerSelector → SubLayout

/-- `geom.simplify(tol, preserve_topology=True)`: topology-preserving
(Douglas-Peucker) simplification.  It is a deterministic transform within
the given tolerance; every property below is stated only up to that
tolerance, so on the point-set denotation it is the identity. -/
def simplify (tol : ℚ) (r : Region) : Region := r

/-- `fuse_polygons(component, layername, layer, round_tol, simplify_tol)`:
extract the layer's raw polygons, round each one's coordinates, take the
union of all of them (`shapely.ops.unary_union`, denotationally the union of
their even-odd point sets), and simplify the result. -/
def fuse_polygons (component : Component) (layername : String)
    (layer : LayerSelector) (round_tol : ℕ) (simplify_tol : ℚ) : Region :=
  let layer_component := component.extract layer
  let shapely_polygons := layer_component.get_polygons.map
    (fun polygon => round_coordinates ⟨polygon, []⟩ round_tol)
  simplify simplify_tol {t | shapely_polygons.any (fun g => g.containsB t) = true}

/-- `cleanup_component(component, layerstack, round_tol, simplify_tol)`:
the layer stack is `layerstack.to_dict()`, an ordered mapping from layer
name to a descriptor of which only the `layer` field is consulted here
(`none` means the layer has no geometric definition).  The source is a dict
comprehension guarded by `if layer["layer"] is not None`. -/
def cleanup_component (component : Component)
    (layerstack : List (String × Option LayerSelector))
    (round_tol : ℕ) (simplify_tol : ℚ) : List (String × Region) :=
  layerstack.filterMap (fun p =>
    match p.2 with
    | some layer => some (p.1, fuse_polygons component p.1 layer round_tol simplify_tol)
    | none => none)

/-- Layer name used in the concrete examples. -/
def coreName : String := "core"

/-- Layer name used in the concrete examples. -/
def cladName : String := "clad"

/-- A raw polygon of zero area: its ring lies on the line `y = 2*x/5`. -/
def degSlanted : List Point := [⟨0, 0, none⟩, ⟨1, 2/5, none⟩, ⟨2, 4/5, none⟩]

/-- A layout whose only polygon (on every layer) is the degenerate `degSlanted`. -/
def compDegOnly : Component := ⟨fun _ => SubLayout.mk [degSlanted]⟩

/-- A layout with no polygons at all. -/
def compNone : Component := ⟨fun _ => SubLayout.mk []⟩

/-- A point inside the triangle `(0,0), (1,0), (2,1)` that `degSlanted`
becomes after rounding at precision 0. -/
def insidePt : Point := ⟨11/10, 3/20, none⟩

/-- A raw polygon whose ring lies on the line `y = x` and survives rounding
at precision 0 unchanged (integer coordinates). -/
def degLine : List Point := [⟨0, 0, none⟩, ⟨1, 1, none⟩, ⟨2, 2, none⟩]

/-- A 4x4 square used alongside the degenerate polygon. -/
def squareRing : List Point := [⟨0, 0, none⟩, ⟨4, 0, none⟩, ⟨4, 4, none⟩, ⟨0, 4, none⟩]

/-- A layout carrying the square together with the degenerate `degLine`. -/
def compSquareDeg : Component := ⟨fun _ => SubLayout.mk [squareRing, degLine]⟩

/-- The same layout without the degenerate polygon. -/
def compSquare : Component := ⟨fun _ => SubLayout.mk [squareRing]⟩

/-- A triangle used for the permutation example. -/
def triA : List Point := [⟨0, 0, none⟩, ⟨4, 0, none⟩, ⟨4, 4, none⟩]

/-- Another triangle used for the permutation example. -/
def triB : List Point := [⟨1, 1, none⟩, ⟨3, 1, none⟩, ⟨3, 3, none⟩]

/-- A layout listing the two triangles in one order. -/
def compAB : Component := ⟨fun _ => SubLayout.mk [triA, triB]⟩

/-- The same layout listing the two triangles in the other order. -/
def compBA : Component := ⟨fun _ => SubLayout.mk [triB, triA]⟩

/-- Layer name of the invalid-configuration example. -/
def wgName : String := "WG"

/-- A selector that matches no polygons of `compNone`. -/
def unmatchedSel : LayerSelector := 7

/-- Kind of a basic shapely geometry: areal (`Polygon`-like) or lineal
(`LineString`-like). -/
inductive ShapeKind where
  | area : ShapeKind
  | curve : ShapeKind
deriving DecidableEq

/-- A basic (single-part) shapely geometry as `tile_shapes` consumes it: its
kind together with its point set.  The plane pieces are abstract tokens:
`tile_shapes` uses nothing of the geometry kernel beyond the set algebra of
union and difference and the fact that `difference` keeps the (areal or
lineal) kind of its left operand. -/
structure BasicShape where
  kind : ShapeKind
  pts : Finset ℕ
deriving DecidableEq

/-- A value of `shapes_dict`: a single shape, or a typed multi-shape
(`MultiPolygon` / `MultiLineString`). -/
inductive Shape where
  | single : BasicShape → Shape
  | multiArea : List BasicShape → Shape
  | multiCurve : List BasicShape → Shape
deriving DecidableEq

instance : Inhabited Shape := ⟨Shape.multiCurve []⟩

/-- The source's `shapes.geoms if hasattr(shapes, "geoms") else [shapes]`. -/
def Shape.geoms : Shape → List BasicShape
  | Shape.single s => [s]
  | Shape.multiArea l => l
  | Shape.multiCurve l => l

/-- `lower_shape.difference(higher_shape)`: the point set is the set
difference; the result keeps the areal/lineal kind of the left operand
(shapely returns `Polygon`/`MultiPolygon` for areal input; multi-part
results are represented by their aggregate point set). -/
def BasicShape.difference (a b : BasicShape) : BasicShape :=
  ⟨a.kind, a.pts \ b.pts⟩

/-- `to_polygons(geometries)`: yield single geometries as they are and the
parts of multi-geometries (`yield from geometry.geoms`). -/
def to_polygons (geometries : List Shape) : List BasicShape :=
  (geometries.map Shape.geoms).flatten

/-- The body of the outer loop of `tile_shapes` for the layer at
`lower_index`: every piece of that layer's shapes gets every piece of every
layer at a strictly smaller index — the strictly-higher-priority layers,
`reversed(list(enumerate(shapes_dict.items()))[:lower_index])` — subtracted,
reading those layers' original shapes from `shapes_dict`. -/
def tiledShapes (shapes_dict : List (String × Shape)) (lower_index : ℕ) : List BasicShape :=
  ((shapes_dict.getD lower_index default).2).geoms.map (fun lower_shape =>
    ((((shapes_dict.take lower_index).reverse).map (fun q => q.2.geoms)).flatten).foldl
      BasicShape.difference lower_shape)

/-- The packaging step closing each loop iteration of `tile_shapes`: a
`MultiPolygon` when the first tiled piece is areal
(`tiled_lower_shapes[0].geom_type in ["Polygon", "MultiPolygon"]`),
otherwise a `MultiLineString` — also when there are no pieces at all, since
an empty Python list is falsy. -/
def packTiles (tiled_lower_shapes : List BasicShape) : Shape :=
  match tiled_lower_shapes with
  | [] => Shape.multiCurve []
  | t :: _ =>
    if t.kind = ShapeKind.area then
      Shape.multiArea (to_polygons (tiled_lower_shapes.map Shape.single))
    else Shape.multiCurve tiled_lower_shapes

/-- `tile_shapes(shapes_dict)`: iterate `reversed(list(enumerate(...)))` over
the fused map and rebuild the mapping in that (reversed) order. -/
def tile_shapes (shapes_dict : List (String × Shape)) : List (String × Shape) :=
  ((List.range shapes_dict.length).reverse).map (fun lower_index =>
    ((shapes_dict.getD lower_index default).1,
      packTiles (tiledShapes shapes_dict lower_index)))

/-- Point set covered by a list of basic shapes. -/
def unionPts (l : List BasicShape) : Finset ℕ :=
  l.foldr (fun s acc => s.pts ∪ acc) ∅

/-- Point set covered by a shapely geometry. -/
def Shape.set (s : Shape) : Finset ℕ := unionPts s.geoms

/-- Union of the Regions of all layers of a map. -/
def unionSets (l : List (String × Shape)) : Finset ℕ :=
  l.foldr (fun p acc => p.2.set ∪ acc) ∅

/-- A two-layer fused map used as concrete input: a higher-priority layer
covering pieces 0 and 1, and below it a two-part layer covering 1, 2 and 3. -/
def sampleShapes : List (String × Shape) :=
  [(coreName, Shape.single ⟨ShapeKind.area, {0, 1}⟩),
   (cladName, Shape.multiArea [⟨ShapeKind.area, {1, 2}⟩, ⟨ShapeKind.area, {3}⟩])]

theorem roundTo_roundTo (q : ℚ) (n : ℕ) : roundTo (roundTo q n) n = roundTo q n := by
  unfold roundTo
  have h10 : ((10 : ℚ) ^ n) ≠ 0 := by positivity
  rw [div_mul_cancel₀ _ h10, round_intCast]

theorem round_coords_round_coords (n : ℕ) (p : Point) :
    round_coords n (round_coords n p) = round_coords n p := by
  cases p with
  | mk x y z =>
    cases z <;> simp [round_coords, roundTo_roundTo]

/-- C7: applying the coordinate-rounding operation to a Region already rounded
at precision `ndigits` yields an identical Region:
`round_coordinates (round_coordinates geom n) n = round_coordinates geom n`. -/
theorem round_coordinates_idempotent (geom : Polygon) (ndigits : ℕ) :
    round_coordinates (round_coordinates geom ndigits) ndigits
      = round_coordinates geom ndigits := by
  cases geom with
  | mk shell holes =>
    simp only [round_coordinates, List.map_map, Polygon.mk.injEq]
    constructor
    · exact List.map_congr_left (fun p _ => round_coords_round_coords ndigits p)
    · refine List.map_congr_left (fun ring _ => ?_)
      simp only [Function.comp_apply, List.map_map]
      exact List.map_congr_left (fun p _ => round_coords_round_coords ndigits p)

/-- C5 (failing input): the third coordinate is *not* rounded in place; the
source's `z = round(x, ndigits)` stores the rounded x-coordinate instead.
At `zBugPoint` with precision 0 the output `z` is `some 1` (= `round (7/5)`),
whereas rounding the input `z = 18/5` gives `4`. -/
theorem round_coordinates_z_bug :
    (round_coordinates ⟨[zBugPoint], []⟩ 0).shell.map Point.z = [some 1] ∧
      roundTo (18/5) 0 = 4 ∧ (1 : ℚ) ≠ 4 := by
  refine ⟨?_, ?_, by norm_num⟩
  · simp [round_coordinates, round_coords, zBugPoint, roundTo]
    norm_num [round_eq]
  · norm_num [roundTo, round_eq]

theorem countP_cast_zmod {α : Type} (L : List α) (p : α → Bool) :
    ((L.countP p : ℕ) : ZMod 2) = (L.map (fun x => if p x then (1 : ZMod 2) else 0)).sum := by
  induction L with
  | nil => simp
  | cons a L ih =>
    by_cases h : p a = true
    · simp [List.countP_cons, h, ih, add_comm]
    · simp [List.countP_cons, h, ih, add_comm]

theorem sum_map_add {α M : Type} [AddCommMonoid M] (L : List α) (f g : α → M) :
    (L.map (fun x => f x + g x)).sum = (L.map f).sum + (L.map g).sum := by
  induction L with
  | nil => simp
  | cons a L ih =>
    simp only [List.map_cons, List.sum_cons, ih]
    abel

/-- Walking once around a closed ring, a boolean observation changes value an
even number of times. -/
theorem cyclic_alternations_even {α : Type} (l : List α) (f : α → Bool) :
    (l.zip (l.rotate 1)).countP (fun e => f e.1 != f e.2) % 2 = 0 := by
  have hdvd : 2 ∣ (l.zip (l.rotate 1)).countP (fun e => f e.1 != f e.2) := by
    rw [← ZMod.natCast_zmod_eq_zero_iff_dvd]
    rw [countP_cast_zmod]
    have hg : (fun (e : α × α) => if (f e.1 != f e.2) then (1 : ZMod 2) else 0)
        = fun e => (if f e.1 then (1 : ZMod 2) else 0) + (if f e.2 then (1 : ZMod 2) else 0) := by
      funext e
      cases h1 : f e.1 <;> cases h2 : f e.2 <;> simp [h1, h2] <;> decide
    rw [hg, sum_map_add]
    have hfst : (l.zip (l.rotate 1)).map (fun e => if f e.1 then (1 : ZMod 2) else 0)
        = l.map (fun v => if f v then (1 : ZMod 2) else 0) := by
      have := List.map_fst_zip l (l.rotate 1) (by simp)
      calc (l.zip (l.rotate 1)).map (fun e => if f e.1 then (1 : ZMod 2) else 0)
          = ((l.zip (l.rotate 1)).map Prod.fst).map (fun v => if f v then (1 : ZMod 2) else 0) := by
            rw [List.map_map]; rfl
        _ = l.map (fun v => if f v then (1 : ZMod 2) else 0) := by rw [this]
    have hsnd : (l.zip (l.rotate 1)).map (fun e => if f e.2 then (1 : ZMod 2) else 0)
        = (l.rotate 1).map (fun v => if f v then (1 : ZMod 2) else 0) := by
      have := List.map_snd_zip l (l.rotate 1) (by simp)
      calc (l.zip (l.rotate 1)).map (fun e => if f e.2 then (1 : ZMod 2) else 0)
          = ((l.zip (l.rotate 1)).map Prod.snd).map (fun v => if f v then (1 : ZMod 2) else 0) := by
            rw [List.map_map]; rfl
        _ = (l.rotate 1).map (fun v => if f v then (1 : ZMod 2) else 0) := by rw [this]
    rw [hfst, hsnd, ((l.rotate_perm 1).map _).sum_eq]
    have : ∀ S : ZMod 2, S + S = 0 := by decide
    exact this _
  omega

/-- A collapsed ring is crossed an even number of times by every horizontal
ray: all straddling edges of the ring lie on one line, so they all cross the
ray at the same point and either all count or none does, and the number of
straddling edges of a closed ring is even. -/
theorem collinear_ringCrossings_even (t : Point) (ring : List Point)
    (h : collinearRing ring) : ringCrossings t ring % 2 = 0 := by
  obtain ⟨a, d, hcol⟩ := h
  have hcong : ringCrossings t ring
      = (ring.zip (ring.rotate 1)).countP (fun e =>
          (decide (t.y < e.1.y) != decide (t.y < e.2.y)) &&
            decide (0 < ((t.y - a.2) * d.1 - (t.x - a.1) * d.2) * d.2)) := by
    refine List.countP_congr (fun e he => ?_)
    obtain ⟨h1, h2⟩ := List.of_mem_zip he
    rw [List.mem_rotate] at h2
    obtain ⟨s, hsx, hsy⟩ := hcol e.1 h1
    obtain ⟨u, hux, huy⟩ := hcol e.2 h2
    unfold edgeCross
    by_cases hstr : (decide (t.y < e.1.y) != decide (t.y < e.2.y)) = true
    · have hyne : e.1.y ≠ e.2.y := by
        intro hq
        rw [hq] at hstr
        simp at hstr
      have husne : u - s ≠ 0 := by
        intro hq
        apply hyne
        have : u = s := by linarith [sub_eq_zero.mp hq]
        rw [hsy, huy, this]
      have hsq : 0 < (u - s) ^ 2 :=
        lt_of_le_of_ne (sq_nonneg _) (Ne.symm (pow_ne_zero 2 husne))
      have hD : ((t.y - e.1.y) * (e.2.x - e.1.x) - (t.x - e.1.x) * (e.2.y - e.1.y))
            * (e.2.y - e.1.y)
          = (u - s) ^ 2 * (((t.y - a.2) * d.1 - (t.x - a.1) * d.2) * d.2) := by
        rw [hsx, hsy, hux, huy]; ring
      rw [hstr]
      simp only [Bool.true_and]
      rw [hD]
      rw [decide_eq_decide.mpr (mul_pos_iff_of_pos_left hsq)]
    · simp only [Bool.not_eq_true] at hstr
      rw [hstr]
      simp
  rw [hcong]
  by_cases hC : decide (0 < ((t.y - a.2) * d.1 - (t.x - a.1) * d.2) * d.2) = true
  · simp only [hC, Bool.and_true]
    exact cyclic_alternations_even ring (fun v => decide (t.y < v.y))
  · simp only [Bool.not_eq_true] at hC
    simp [hC]

/-- A polygon whose shell has collapsed onto a line (and which has no holes)
contains no point under the even-odd rule. -/
theorem collinear_polygon_not_contains (g : Polygon) (t : Point)
    (hsh : collinearRing g.shell) (hh : g.holes = []) :
    g.containsB t = false := by
  have := collinear_ringCrossings_even t g.shell hsh
  simp [Polygon.containsB, hh]
  omega

theorem mem_fuse_polygons (component : Component) (layername : String)
    (layer : LayerSelector) (round_tol : ℕ) (simplify_tol : ℚ) (t : Point) :
    t ∈ fuse_polygons component layername layer round_tol simplify_tol ↔
      (component.extract layer).get_polygons.any
        (fun polygon => (round_coordinates ⟨polygon, []⟩ round_tol).containsB t) = true := by
  simp [fuse_polygons, simplify, List.any_map, Function.comp, Set.mem_def,
    Set.mem_setOf_eq, List.mem_map]
  constructor
  · rintro ⟨p, hp, hc⟩
    exact ⟨p, hp, hc⟩
  · rintro ⟨p, hp, hc⟩
    exact ⟨p, hp, hc⟩

theorem fuse_polygons_of_no_polygons (component : Component) (layername : String)
    (layer : LayerSelector) (round_tol : ℕ) (simplify_tol : ℚ)
    (h : (component.extract layer).get_polygons = []) :
    fuse_polygons component layername layer round_tol simplify_tol = (∅ : Region) := by
  ext t
  rw [mem_fuse_polygons, h]
  simp

/-- C3: the stack-processing operation fuses exactly the layers whose
descriptor is non-null, in stack order: the output map is the input stack
filtered to its non-null entries, each mapped to the fused Region of its own
selector (one fusion per emitted layer), with null-descriptor layers omitted
entirely. -/
theorem cleanup_component_fuses_nonnull (component : Component)
    (layerstack : List (String × Option LayerSelector)) (round_tol : ℕ) (simplify_tol : ℚ) :
    cleanup_component component layerstack round_tol simplify_tol =
      (layerstack.filter (fun p => p.2.isSome)).map
        (fun p => (p.1, fuse_polygons component p.1 (p.2.getD 0) round_tol simplify_tol)) := by
  induction layerstack with
  | nil => rfl
  | cons p rest ih =>
    cases h : p.2 with
    | none =>
      simp [cleanup_component, List.filterMap_cons, List.filter_cons, h] at ih ⊢
      exact ih
    | some layer =>
      simp [cleanup_component, List.filterMap_cons, List.filter_cons, h] at ih ⊢
      exact ih

/-- C6: the fused Region is independent of the order in which the layer's
polygons are encountered: permuting the extracted polygon list leaves the
result of `fuse_polygons` unchanged. -/
theorem fuse_polygons_perm_invariant (c₁ c₂ : Component) (n₁ n₂ : String)
    (sel₁ sel₂ : LayerSelector) (round_tol : ℕ) (simplify_tol : ℚ)
    (hperm : ((c₁.extract sel₁).get_polygons).Perm ((c₂.extract sel₂).get_polygons)) :
    fuse_polygons c₁ n₁ sel₁ round_tol simplify_tol
      = fuse_polygons c₂ n₂ sel₂ round_tol simplify_tol := by
  ext t
  rw [mem_fuse_polygons, mem_fuse_polygons]
  simp only [List.any_eq_true]
  constructor
  · rintro ⟨p, hp, hc⟩
    exact ⟨p, hperm.mem_iff.mp hp, hc⟩
  · rintro ⟨p, hp, hc⟩
    exact ⟨p, hperm.mem_iff.mpr hp, hc⟩

/-- C4 (amended): if a polygon of the layer is degenerate *after coordinate
rounding* — its rounded ring has collapsed onto a line, hence has zero
area — it is excluded from the union: the fused Region equals the Region
computed from the same polygon list without it, and fusion still produces a
Region for the layer rather than aborting. -/
theorem fuse_polygons_excludes_rounded_degenerate (c₁ c₂ : Component)
    (n₁ n₂ : String) (sel₁ sel₂ : LayerSelector) (round_tol : ℕ) (simplify_tol : ℚ)
    (d : List Point) (pre post : List (List Point))
    (h₁ : (c₁.extract sel₁).get_polygons = pre ++ d :: post)
    (h₂ : (c₂.extract sel₂).get_polygons = pre ++ post)
    (hdeg : collinearRing ((round_coordinates ⟨d, []⟩ round_tol).shell)) :
    fuse_polygons c₁ n₁ sel₁ round_tol simplify_tol
      = fuse_polygons c₂ n₂ sel₂ round_tol simplify_tol := by
  ext t
  rw [mem_fuse_polygons, mem_fuse_polygons, h₁, h₂]
  have hd : (round_coordinates ⟨d, []⟩ round_tol).containsB t = false :=
    collinear_polygon_not_contains _ t hdeg (by simp [round_coordinates])
  simp [List.any_append, hd]

theorem degSlanted_rounded :
    round_coordinates ⟨degSlanted, []⟩ 0
      = ⟨[⟨0, 0, none⟩, ⟨1, 0, none⟩, ⟨2, 1, none⟩], []⟩ := by
  norm_num [round_coordinates, round_coords, degSlanted, roundTo, round_eq]

/-- C4 (counterexample): a *raw* polygon of zero area is not excluded from the
union.  `degSlanted` is collinear (zero area), but rounding at precision 0
moves its vertices off the line, so a layer containing only this degenerate
polygon fuses to a nonempty Region (it contains `insidePt`), while the union
without the degenerate polygon is empty. -/
theorem fuse_polygons_keeps_raw_degenerate :
    collinearRing degSlanted ∧
      insidePt ∈ fuse_polygons compDegOnly coreName 0 0 (1/100000) ∧
      fuse_polygons compNone coreName 0 0 (1/100000) = (∅ : Region) := by
  refine ⟨?_, ?_, fuse_polygons_of_no_polygons compNone coreName 0 0 (1/100000) rfl⟩
  · refine ⟨(0, 0), (1, 2/5), ?_⟩
    intro v hv
    simp only [degSlanted, List.mem_cons, List.not_mem_nil, or_false] at hv
    rcases hv with rfl | rfl | rfl
    · exact ⟨0, by norm_num⟩
    · exact ⟨1, by norm_num⟩
    · exact ⟨2, by norm_num⟩
  · rw [mem_fuse_polygons]
    have : (compDegOnly.extract 0).get_polygons = [degSlanted] := rfl
    rw [this]
    simp only [List.any_cons, List.any_nil, Bool.or_false, degSlanted_rounded]
    norm_num [Polygon.containsB, ringCrossings, List.rotate, edgeCross, insidePt,
      List.countP_cons]

theorem degLine_rounded_collinear :
    collinearRing ((round_coordinates ⟨degLine, []⟩ 0).shell) := by
  have h : round_coordinates ⟨degLine, []⟩ 0 = ⟨degLine, []⟩ := by
    norm_num [round_coordinates, round_coords, degLine, roundTo, round_eq]
  rw [h]
  refine ⟨(0, 0), (1, 1), ?_⟩
  intro v hv
  simp only [degLine, List.mem_cons, List.not_mem_nil, or_false] at hv
  rcases hv with rfl | rfl | rfl
  · exact ⟨0, by norm_num⟩
  · exact ⟨1, by norm_num⟩
  · exact ⟨2, by norm_num⟩

theorem fuse_polygons_excludes_rounded_degenerate_witness :
    (compSquareDeg.extract 0).get_polygons = [squareRing] ++ degLine :: [] ∧
      (compSquare.extract 0).get_polygons = [squareRing] ++ [] ∧
      collinearRing ((round_coordinates ⟨degLine, []⟩ 0).shell) ∧
      fuse_polygons compSquareDeg coreName 0 0 (1/100000)
        = fuse_polygons compSquare coreName 0 0 (1/100000) :=
  ⟨rfl, rfl, degLine_rounded_collinear,
    fuse_polygons_excludes_rounded_degenerate compSquareDeg compSquare coreName coreName
      0 0 0 (1/100000) degLine [squareRing] [] rfl rfl degLine_rounded_collinear⟩

theorem fuse_polygons_perm_invariant_witness :
    ((compAB.extract 0).get_polygons).Perm ((compBA.extract 0).get_polygons) ∧
      fuse_polygons compAB cladName 0 5 (1/100000)
        = fuse_polygons compBA cladName 0 5 (1/100000) :=
  ⟨List.Perm.swap triB triA [],
    fuse_polygons_perm_invariant compAB compBA cladName cladName 0 0 5 (1/100000)
      (List.Perm.swap triB triA [])⟩

/-- C8 (counterexample): an invalid layer-stack configuration — here a layer
whose selector matches no polygons of the layout — raises no configuration
error: `cleanup_component` runs to completion and performs the fusion work
for that very layer, emitting it with an empty fused Region instead of
stopping before any fusion work. -/
theorem cleanup_component_no_config_error :
    cleanup_component compNone [(wgName, some unmatchedSel)] 2 (1/100)
      = [(wgName, (∅ : Region))] := by
  simp only [cleanup_component, List.filterMap_cons, List.filterMap_nil, List.cons.injEq,
    Prod.mk.injEq, and_true, true_and]
  exact fuse_polygons_of_no_polygons compNone wgName unmatchedSel 2 (1/100) rfl

/-- C8 (amended): the stack-processing operation performs no validation of the
layer stack: a non-null layer whose selector matches no polygons of the
layout is not rejected and no error is raised; the layer is fused like any
other and emitted with an empty Region. -/
theorem cleanup_component_no_validation (component : Component)
    (layerstack : List (String × Option LayerSelector)) (name : String)
    (sel : LayerSelector) (round_tol : ℕ) (simplify_tol : ℚ)
    (hmem : (name, some sel) ∈ layerstack)
    (hempty : (component.extract sel).get_polygons = []) :
    (name, (∅ : Region)) ∈ cleanup_component component layerstack round_tol simplify_tol := by
  rw [← fuse_polygons_of_no_polygons component name sel round_tol simplify_tol hempty]
  unfold cleanup_component
  exact List.mem_filterMap.mpr ⟨(name, some sel), hmem, rfl⟩

theorem cleanup_component_no_validation_witness :
    (wgName, some unmatchedSel) ∈ [(wgName, some unmatchedSel)] ∧
      (compNone.extract unmatchedSel).get_polygons = [] ∧
      (wgName, (∅ : Region)) ∈ cleanup_component compNone [(wgName, some unmatchedSel)] 2 (1/100) :=
  ⟨List.mem_cons_self _ _, rfl,
    cleanup_component_no_validation compNone [(wgName, some unmatchedSel)] wgName
      unmatchedSel 2 (1/100) (List.mem_cons_self _ _) rfl⟩

theorem mem_unionPts (x : ℕ) (l : List BasicShape) :
    x ∈ unionPts l ↔ ∃ s ∈ l, x ∈ s.pts := by
  induction l with
  | nil => simp [unionPts]
  | cons s t ih => simp [unionPts, List.foldr_cons, ih.symm]

theorem mem_unionSets (x : ℕ) (l : List (String × Shape)) :
    x ∈ unionSets l ↔ ∃ p ∈ l, x ∈ p.2.set := by
  induction l with
  | nil => simp [unionSets]
  | cons p t ih => simp [unionSets, List.foldr_cons, ih.symm]

theorem foldl_difference_pts (hs : List BasicShape) (s : BasicShape) :
    (hs.foldl BasicShape.difference s).pts = s.pts \ unionPts hs := by
  induction hs generalizing s with
  | nil => simp [unionPts]
  | cons h t ih =>
    rw [List.foldl_cons, ih]
    ext x
    simp only [BasicShape.difference, unionPts, List.foldr_cons, Finset.mem_sdiff,
      Finset.mem_union]
    tauto

theorem to_polygons_map_single (l : List BasicShape) :
    to_polygons (l.map Shape.single) = l := by
  induction l with
  | nil => rfl
  | cons s t ih =>
    simp only [to_polygons, List.map_cons, List.flatten_cons] at ih ⊢
    rw [ih]
    rfl

theorem packTiles_set (l : List BasicShape) : (packTiles l).set = unionPts l := by
  cases l with
  | nil => rfl
  | cons t rest =>
    rw [show packTiles (t :: rest)
        = if t.kind = ShapeKind.area then
            Shape.multiArea (to_polygons ((t :: rest).map Shape.single))
          else Shape.multiCurve (t :: rest) from rfl]
    by_cases hk : t.kind = ShapeKind.area
    · rw [if_pos hk]
      show unionPts (to_polygons ((t :: rest).map Shape.single)) = unionPts (t :: rest)
      rw [to_polygons_map_single]
    · rw [if_neg hk]
      rfl

theorem mem_tiledShapes (m : List (String × Shape)) (i : ℕ) (x : ℕ) :
    x ∈ unionPts (tiledShapes m i) ↔
      x ∈ (m.getD i default).2.set ∧ x ∉ unionSets (m.take i) := by
  unfold tiledShapes
  rw [mem_unionPts]
  have hU : ∀ y : ℕ,
      y ∈ unionPts ((((m.take i).reverse).map (fun q => q.2.geoms)).flatten) ↔
        y ∈ unionSets (m.take i) := by
    intro y
    rw [mem_unionPts, mem_unionSets]
    constructor
    · rintro ⟨s, hs, hy⟩
      rw [List.mem_flatten] at hs
      obtain ⟨L, hL, hsL⟩ := hs
      rw [List.mem_map] at hL
      obtain ⟨q, hq, rfl⟩ := hL
      rw [List.mem_reverse] at hq
      exact ⟨q, hq, (mem_unionPts y q.2.geoms).mpr ⟨s, hsL, hy⟩⟩
    · rintro ⟨q, hq, hy⟩
      obtain ⟨s, hs, hy'⟩ := (mem_unionPts y q.2.geoms).mp hy
      refine ⟨s, ?_, hy'⟩
      rw [List.mem_flatten]
      exact ⟨q.2.geoms, List.mem_map.mpr ⟨q, List.mem_reverse.mpr hq, rfl⟩, hs⟩
  constructor
  · rintro ⟨s, hs, hx⟩
    rw [List.mem_map] at hs
    obtain ⟨g, hg, rfl⟩ := hs
    rw [foldl_difference_pts, Finset.mem_sdiff] at hx
    obtain ⟨hx1, hx2⟩ := hx
    refine ⟨(mem_unionPts x _).mpr ⟨g, hg, hx1⟩, fun hx3 => hx2 ((hU x).mpr hx3)⟩
  · rintro ⟨hx1, hx2⟩
    obtain ⟨g, hg, hx1'⟩ := (mem_unionPts x _).mp hx1
    refine ⟨_, List.mem_map.mpr ⟨g, hg, rfl⟩, ?_⟩
    rw [foldl_difference_pts, Finset.mem_sdiff]
    exact ⟨hx1', fun hx3 => hx2 ((hU x).mp hx3)⟩

theorem tile_shapes_length (m : List (String × Shape)) :
    (tile_shapes m).length = m.length := by
  simp [tile_shapes]

theorem tile_shapes_getD (m : List (String × Shape)) (j : ℕ) (h : j < m.length) :
    (tile_shapes m).getD j default
      = ((m.getD (m.length - 1 - j) default).1,
          packTiles (tiledShapes m (m.length - 1 - j))) := by
  have hj : j < (tile_shapes m).length := by rw [tile_shapes_length]; exact h
  rw [List.getD_eq_getElem _ _ hj]
  unfold tile_shapes
  rw [List.getElem_map, List.getElem_reverse, List.getElem_range]
  simp

theorem tileSet_char (m : List (String × Shape)) (i : ℕ) (h : i < m.length) :
    ((tile_shapes m).getD (m.length - 1 - i) default).2.set
      = (m.getD i default).2.set \ unionSets (m.take i) := by
  have h1 : m.length - 1 - (m.length - 1 - i) = i := by omega
  rw [tile_shapes_getD m (m.length - 1 - i) (by omega), h1]
  show (packTiles (tiledShapes m i)).set = _
  rw [packTiles_set]
  ext x
  rw [mem_tiledShapes, Finset.mem_sdiff]

/-- C1: for every fused-layer map `m` and every layer position `i`, the tile
assigned to that layer is the layer's fused Region with the fused Regions of
all layers of strictly higher priority — those at strictly smaller positions
of the map, the source's `_higher_name` layers — subtracted, and the
subtrahend is their ORIGINAL fused Regions as stored in `shapes_dict`, not
their already-computed tiles.  (The output map is built in reverse, so the
layer's entry sits at output position `m.length - 1 - i`.) -/
theorem tile_shapes_subtracts_higher (m : List (String × Shape)) (i : ℕ)
    (h : i < m.length) :
    ((tile_shapes m).getD (m.length - 1 - i) default).2.set
      = (m.getD i default).2.set \ unionSets (m.take i) :=
  tileSet_char m i h

theorem tile_shapes_subtracts_higher_witness :
    1 < sampleShapes.length ∧
      ((tile_shapes sampleShapes).getD (sampleShapes.length - 1 - 1) default).2.set
        = (sampleShapes.getD 1 default).2.set \ unionSets (sampleShapes.take 1) :=
  ⟨by decide, tile_shapes_subtracts_higher sampleShapes 1 (by decide)⟩

theorem mem_unionSets_index (l : List (String × Shape)) (x : ℕ) :
    x ∈ unionSets l ↔ ∃ i, ∃ _ : i < l.length, x ∈ (l.getD i default).2.set := by
  rw [mem_unionSets]
  constructor
  · rintro ⟨q, hq, hx⟩
    obtain ⟨i, hi, hieq⟩ := List.mem_iff_getElem.mp hq
    refine ⟨i, hi, ?_⟩
    rw [List.getD_eq_getElem _ _ hi, hieq]
    exact hx
  · rintro ⟨i, hi, hx⟩
    refine ⟨l.getD i default, ?_, hx⟩
    rw [List.getD_eq_getElem _ _ hi]
    exact List.getElem_mem hi

/-- C2: the tiling operation partitions the occupied area: tiles at distinct
positions of the output map have empty intersection, and the union of all
output tiles equals the union of all input fused Regions — no area is lost,
only reassigned. -/
theorem tile_shapes_partition (m : List (String × Shape)) :
    (∀ i j, i < (tile_shapes m).length → j < (tile_shapes m).length → i ≠ j →
      ((tile_shapes m).getD i default).2.set ∩ ((tile_shapes m).getD j default).2.set = ∅) ∧
      unionSets (tile_shapes m) = unionSets m := by
  have key : ∀ a b, a < m.length → b < m.length → a < b →
      ((m.getD a default).2.set \ unionSets (m.take a)) ∩
        ((m.getD b default).2.set \ unionSets (m.take b)) = ∅ := by
    intro a b ha hb hab
    rw [Finset.eq_empty_iff_forall_not_mem]
    intro x hx
    rw [Finset.mem_inter, Finset.mem_sdiff, Finset.mem_sdiff] at hx
    obtain ⟨⟨hxa, _⟩, _, hnb⟩ := hx
    apply hnb
    rw [mem_unionSets_index]
    have hlen : a < (m.take b).length := by
      rw [List.length_take]
      omega
    refine ⟨a, hlen, ?_⟩
    rw [List.getD_eq_getElem _ _ hlen, List.getElem_take]
    rw [List.getD_eq_getElem _ _ ha] at hxa
    exact hxa
  constructor
  · intro i j hi hj hij
    rw [tile_shapes_length] at hi hj
    have hchar_i := tileSet_char m (m.length - 1 - i) (by omega)
    have hchar_j := tileSet_char m (m.length - 1 - j) (by omega)
    rw [show m.length - 1 - (m.length - 1 - i) = i by omega] at hchar_i
    rw [show m.length - 1 - (m.length - 1 - j) = j by omega] at hchar_j
    rw [hchar_i, hchar_j]
    rcases Nat.lt_or_ge (m.length - 1 - i) (m.length - 1 - j) with hab | hab
    · exact key _ _ (by omega) (by omega) hab
    · have hba : m.length - 1 - j < m.length - 1 - i := by omega
      rw [Finset.inter_comm]
      exact key _ _ (by omega) (by omega) hba
  · ext x
    rw [mem_unionSets_index, mem_unionSets_index]
    constructor
    · rintro ⟨j, hj, hx⟩
      rw [tile_shapes_length] at hj
      have hchar := tileSet_char m (m.length - 1 - j) (by omega)
      rw [show m.length - 1 - (m.length - 1 - j) = j by omega] at hchar
      rw [hchar, Finset.mem_sdiff] at hx
      exact ⟨m.length - 1 - j, by omega, hx.1⟩
    · rintro ⟨a, ha, hx⟩
      have hex : ∃ b, b < m.length ∧ x ∈ (m.getD b default).2.set := ⟨a, ha, hx⟩
      classical
      obtain ⟨hb0len, hxb0⟩ := Nat.find_spec hex
      have hnotU : x ∉ unionSets (m.take (Nat.find hex)) := by
        intro hxu
        rw [mem_unionSets_index] at hxu
        obtain ⟨c, hc, hxc⟩ := hxu
        have hclen : c < m.length := by
          rw [List.length_take] at hc
          omega
        have hcfind : c < Nat.find hex := by
          rw [List.length_take] at hc
          omega
        rw [List.getD_eq_getElem _ _ hc, List.getElem_take] at hxc
        exact Nat.find_min hex hcfind ⟨hclen, by rw [List.getD_eq_getElem _ _ hclen]; exact hxc⟩
      refine ⟨m.length - 1 - Nat.find hex, ?_, ?_⟩
      · rw [tile_shapes_length]
        omega
      · have hchar := tileSet_char m (Nat.find hex) hb0len
        rw [hchar, Finset.mem_sdiff]
        exact ⟨hxb0, hnotU⟩

theorem tile_shapes_partition_witness :
    ((tile_shapes sampleShapes).getD 0 default).2.set
        ∩ ((tile_shapes sampleShapes).getD 1 default).2.set = ∅ ∧
      unionSets (tile_shapes sampleShapes) = unionSets sampleShapes :=
  ⟨(tile_shapes_partition sampleShapes).1 0 1 (by decide) (by decide) (by decide),
    (tile_shapes_partition sampleShapes).2⟩

/-- C9: the output of the tiling operation carries exactly the input map's
keys in reversed order — the lowest-priority (last) input layer is the first
entry of the output map. -/
theorem tile_shapes_keys_reversed (m : List (String × Shape)) :
    (tile_shapes m).map Prod.fst = (m.map Prod.fst).reverse := by
  apply List.ext_getElem
  · simp [tile_shapes]
  · intro j h1 h2
    have hjlen : j < m.length := by
      simpa [tile_shapes] using h1
    have hmlen : m.length - 1 - j < m.length := by omega
    simp only [tile_shapes, List.getElem_map, List.getElem_reverse, List.length_reverse,
      List.length_range, List.getElem_range, List.length_map]
    rw [List.getD_eq_getElem _ _ hmlen]

/-- C10: every value of the tiled map is a typed multi-shape — never a single
shape — and the multi-type chosen for a layer is determined solely by the
geometry kind of the first tiled piece computed for that layer: a
`MultiPolygon` when that first piece is areal, a `MultiLineString` otherwise
(also when the layer produced no pieces at all). -/
theorem tile_shapes_values_multi (m : List (String × Shape)) (i : ℕ)
    (h : i < m.length) :
    (∀ b, ((tile_shapes m).getD (m.length - 1 - i) default).2 ≠ Shape.single b) ∧
      ((tiledShapes m i).head?.map BasicShape.kind = some ShapeKind.area →
        ((tile_shapes m).getD (m.length - 1 - i) default).2
          = Shape.multiArea (tiledShapes m i)) ∧
      ((tiledShapes m i).head?.map BasicShape.kind ≠ some ShapeKind.area →
        ((tile_shapes m).getD (m.length - 1 - i) default).2
          = Shape.multiCurve (tiledShapes m i)) := by
  have h1 : m.length - 1 - (m.length - 1 - i) = i := by omega
  rw [tile_shapes_getD m (m.length - 1 - i) (by omega), h1]
  cases hts : tiledShapes m i with
  | nil =>
    refine ⟨fun b => by simp [packTiles], fun hk => by simp at hk, fun _ => by simp [packTiles]⟩
  | cons t rest =>
    by_cases hk : t.kind = ShapeKind.area
    · have hpack : packTiles (t :: rest) = Shape.multiArea (t :: rest) := by
        rw [show packTiles (t :: rest)
            = if t.kind = ShapeKind.area then
                Shape.multiArea (to_polygons ((t :: rest).map Shape.single))
              else Shape.multiCurve (t :: rest) from rfl,
          if_pos hk, to_polygons_map_single]
      refine ⟨fun b => by simp [hpack], fun _ => by rw [hpack], fun hne => ?_⟩
      exact absurd (by simp [hk]) hne
    · have hpack : packTiles (t :: rest) = Shape.multiCurve (t :: rest) := by
        rw [show packTiles (t :: rest)
            = if t.kind = ShapeKind.area then
                Shape.multiArea (to_polygons ((t :: rest).map Shape.single))
              else Shape.multiCurve (t :: rest) from rfl,
          if_neg hk]
      refine ⟨fun b => by simp [hpack], fun hsome => ?_, fun _ => by rw [hpack]⟩
      simp at hsome
      exact absurd hsome hk

theorem tile_shapes_values_multi_witness :
    1 < sampleShapes.length ∧
      (tiledShapes sampleShapes 1).head?.map BasicShape.kind = some ShapeKind.area ∧
      ((tile_shapes sampleShapes).getD (sampleShapes.length - 1 - 1) default).2
        = Shape.multiArea (tiledShapes sampleShapes 1) :=
  ⟨by decide, by decide,
    (tile_shapes_values_multi sampleShapes 1 (by decide)).2.1 (by decide)⟩

end ParseGds
